import Mathlib

/-!
Verification of the devstrip core engine (src/core.rs) against its
natural-language specification.

The filesystem-facing code is shallowly embedded: paths are lists of
components, and the filesystem accessed during a scan is a record of
abstract, total Lean functions, one per `std::fs` primitive the source
uses (`canonicalize`, `read_dir`, `symlink_metadata`, existence tests).
Fallible OS calls return `Option`.  `SystemTime` is modelled as `Nat`
(seconds).  `u64` quantities are `Nat`, with wrap-around taken modulo
2 ^ 64 exactly where Rust integer addition can overflow.  Directory
sizing (`calculate_size`) is kept abstract as the field `FS.size`,
since no claim concerns its internals, only how its result is used.
Progress-reporter callbacks are omitted: they receive strings and
cannot influence any result the claims mention.  Rust's stable
`sort_by` is modelled by `List.insertionSort`, which is stable and
computes the same stable sorted permutation.
-/

namespace Devstrip

/-- A filesystem path, as its list of components (`PathBuf` segments). -/
abbrev Path := List String

/-- Result of `std::fs::FileType` queries on a directory entry. -/
inductive FileType where
  | file
  | dir
  | symlink
deriving DecidableEq

/-- Fields of `std::fs::Metadata` the source reads: `is_dir()` and
`modified()` (the latter fallible, hence `Option`). -/
structure Metadata where
  isDir : Bool
  modified : Option Nat
deriving DecidableEq

/-- One entry yielded by `fs::read_dir`: its (UTF-8) file name and the
result of `entry.file_type()` (`none` models an `Err`). -/
structure DirEntry where
  name : String
  ftype : Option FileType
deriving DecidableEq

/-- The immutable filesystem state a scan observes.  Each field embeds
one primitive used by `core.rs`:
`home` models `std::env::var_os("HOME")`;
`canon` models `fs::canonicalize` (`none` = failure);
`pathExists` models `Path::exists`;
`isDir` models `Path::is_dir`;
`readDir` models `fs::read_dir` with `Err` entries already flattened
away (`none` = the call itself failed);
`meta` models `safe_metadata`, i.e. `fs::symlink_metadata(..).ok()`;
`size` models `calculate_size` (recursive byte total);
`now` models `SystemTime::now()` in seconds. -/
structure FS where
  home : Option Path
  canon : Path → Option Path
  pathExists : Path → Bool
  isDir : Path → Bool
  readDir : Path → Option (List DirEntry)
  meta : Path → Option Metadata
  size : Path → Nat
  now : Nat

/-- `ScanConfig` from core.rs. -/
structure ScanConfig where
  roots : List Path
  min_age_days : Nat
  max_depth : Nat
  keep_latest_derived : Nat
  keep_latest_cache : Nat
  exclude_paths : List Path

/-- `Candidate` from core.rs. -/
structure Candidate where
  path : Path
  size_bytes : Nat
  category : String
  reason : String
  last_used : Option Nat
deriving DecidableEq

/-- `Candidate::display_name`: `to_string_lossy` of the path, modelled
as the components joined by the separator. -/
def Candidate.display_name (c : Candidate) : String :=
  String.intercalate "/" c.path

/-- `CleanupResult` from core.rs. -/
structure CleanupResult where
  candidate : Candidate
  success : Bool
  error : Option String
deriving DecidableEq

/-- `PROJECT_PATTERNS` from core.rs. -/
def PROJECT_PATTERNS : List String :=
  ["build", "dist", "out", "_build", "target", "node_modules", "DerivedData",
   ".pytest_cache", ".mypy_cache", ".ruff_cache", ".tox", ".eggs", "coverage",
   "__pycache__", ".parcel-cache", ".gradle", ".sass-cache", ".cache"]

/-- `SKIP_DIR_NAMES` from core.rs. -/
def SKIP_DIR_NAMES : List String :=
  [".git", ".hg", ".svn", ".idea", ".vscode", ".gradle"]

/-- `CACHE_TARGETS` from core.rs: home-relative path, category, reason. -/
def CACHE_TARGETS : List (Path × String × String) :=
  [(["Library", "Caches", "pip"], "Python", "pip cache"),
   ([".cache", "pip"], "Python", "pip cache"),
   ([".cache", "pip-tools"], "Python", "pip-tools cache"),
   ([".cache", "pipenv"], "Python", "pipenv cache"),
   ([".cache", "pre-commit"], "Python", "pre-commit cache"),
   ([".cache", "matplotlib"], "Python", "matplotlib cache"),
   ([".cache", "pytest"], "Python", "pytest cache"),
   ([".cache", "ruff"], "Python", "ruff cache"),
   ([".cache", "uv"], "Python", "uv cache"),
   ([".npm"], "Node", "npm cache"),
   (["Library", "Caches", "npm"], "Node", "npm cache"),
   (["Library", "Caches", "Yarn"], "Node", "Yarn cache"),
   ([".cache", "yarn"], "Node", "Yarn cache"),
   (["Library", "Caches", "CocoaPods"], "CocoaPods", "CocoaPods cache"),
   ([".gradle", "caches"], "Gradle", "Gradle caches"),
   ([".gradle", "daemon"], "Gradle", "Gradle daemons"),
   ([".gradle", "native"], "Gradle", "Gradle native cache"),
   (["Library", "Caches", "JetBrains"], "JetBrains", "JetBrains IDE caches"),
   (["Library", "Application Support", "Code", "Cache"], "VSCode", "VSCode cache"),
   (["Library", "Application Support", "Code", "CachedData"], "VSCode", "VSCode cached data"),
   (["Library", "Application Support", "Slack", "Service Worker", "CacheStorage"],
     "Slack", "Slack cache")]

/-- Home-relative location of Xcode DerivedData (inline string in
`gather_candidates`). -/
def XCODE_DERIVED_DATA_REL : Path := ["Library", "Developer", "Xcode", "DerivedData"]

/-- Home-relative location of Xcode Archives. -/
def XCODE_ARCHIVES_REL : Path := ["Library", "Developer", "Xcode", "Archives"]

/-- Home-relative location of CoreSimulator caches. -/
def CORE_SIMULATOR_CACHES_REL : Path := ["Library", "Developer", "CoreSimulator", "Caches"]

/-- Home-relative location of the Homebrew download cache. -/
def HOMEBREW_CACHE_REL : Path := ["Library", "Caches", "Homebrew"]

/-- `is_excluded` from core.rs: canonicalize (falling back to the raw
path on failure) and test equality with, or descent below, any exclude
path.  `Path::starts_with` is component-wise prefix. -/
def is_excluded (fs : FS) (path : Path) (excludes : List Path) : Bool :=
  let resolved := (fs.canon path).getD path
  excludes.any fun exclude => resolved == exclude || exclude.isPrefixOf resolved

/-- `canonical_key` from core.rs: canonical form of a path, falling
back to the raw path when canonicalization fails. -/
def canonical_key (fs : FS) (path : Path) : Path :=
  (fs.canon path).getD path

/-- Modulus of Rust `u64` arithmetic. -/
def U64_MOD : Nat := 2 ^ 64

/-- `scan_total_size` from core.rs: `candidates.iter().map(size_bytes).sum()`.
Rust `u64` addition wraps on overflow (release profile), so each step is
taken modulo 2 ^ 64. -/
def scan_total_size (candidates : List Candidate) : Nat :=
  candidates.foldl (fun acc c => (acc + c.size_bytes) % U64_MOD) 0

/-- Second definition, following the SPEC's words rather than the code,
for comparison: "sum of size_bytes, saturating (never overflows)".
A left-to-right saturating sum equals the exact sum capped at the
maximum representable value. -/
def scan_total_size_saturating (candidates : List Candidate) : Nat :=
  min (candidates.foldl (fun acc c => acc + c.size_bytes) 0) (U64_MOD - 1)

/-- Byte-wise `str::ends_with`, modelled on the character list
(the suffixes used by the source are ASCII). -/
def str_ends_with (s suffix : String) : Bool :=
  suffix.data.isSuffixOf s.data

/-- `classify_project_dir` from core.rs. -/
def classify_project_dir (name base_reason : String) (pattern_set : List String)
    (cutoff modified : Option Nat) : Option String :=
  if name = "__pycache__" then some base_reason
  else
    let matches_named_pattern := pattern_set.contains name || str_ends_with name ".egg-info"
    if !matches_named_pattern then none
    else
      match cutoff, modified with
      | some limit, some mtime =>
          if limit ≤ mtime then none
          else some (base_reason ++ " (" ++ name ++ ")")
      | _, _ => some (base_reason ++ " (" ++ name ++ ")")

/-- The age cutoff computed at the top of `collect_matching_dirs`:
`None` when `min_age_days == 0`, otherwise
`SystemTime::now().checked_sub(days * 86400)`. -/
def scan_cutoff (now min_age_days : Nat) : Option Nat :=
  if min_age_days = 0 then none
  else if min_age_days * 86400 ≤ now then some (now - min_age_days * 86400)
  else none

/-- Sort relation used on `(modified, path)` pairs by
`sort_by(|a, b| b.0.cmp(&a.0))`: modification time descending. -/
def dated_before (a b : Nat × Path) : Prop := b.1 ≤ a.1

instance : DecidableRel dated_before := fun a b =>
  inferInstanceAs (Decidable (b.1 ≤ a.1))

/-- Candidate built by the keep-latest loop for a retained pair,
provided its computed size is nonzero. -/
def mk_keep (fs : FS) (category reason : String) (tp : Nat × Path) : Option Candidate :=
  let size := fs.size tp.2
  if size = 0 then none
  else some (Candidate.mk tp.2 size category reason (some tp.1))

/-- The `for (index, (mtime, path)) in dated_dirs.into_iter().enumerate()`
loop of `collect_keep_latest`: skip the first `keep` entries, drop
zero-size entries, emit the rest. -/
def keep_latest_loop (fs : FS) (keep : Nat) (category reason : String) :
    Nat → List (Nat × Path) → List Candidate
  | _, [] => []
  | index, tp :: rest =>
      if index < keep then keep_latest_loop fs keep category reason (index + 1) rest
      else
        match mk_keep fs category reason tp with
        | none => keep_latest_loop fs keep category reason (index + 1) rest
        | some c => c :: keep_latest_loop fs keep category reason (index + 1) rest

/-- Body of the `for entry in entries.flatten()` loop of
`collect_keep_latest`: skip excluded children, children without
metadata, non-directories and children whose modification time cannot
be read; keep `(modified, child)` pairs. -/
def dated_entry (fs : FS) (base : Path) (excludes : List Path)
    (entry : DirEntry) : Option (Nat × Path) :=
  let child := base ++ [entry.name]
  if is_excluded fs child excludes then none
  else
    match fs.meta child with
    | none => none
    | some metadata =>
        if !metadata.isDir then none
        else
          match metadata.modified with
          | some modified => some (modified, child)
          | none => none

/-- `collect_keep_latest` from core.rs. -/
def collect_keep_latest (fs : FS) (base : Path) (keep : Nat)
    (category reason : String) (excludes : List Path) : List Candidate :=
  if is_excluded fs base excludes || !fs.pathExists base then []
  else
    match fs.readDir base with
    | none => []
    | some entries =>
        let dated_dirs := entries.filterMap (dated_entry fs base excludes)
        keep_latest_loop fs keep category reason 0
          (List.insertionSort dated_before dated_dirs)

/-- The `(modified, child)` pair `dated_entry` yields for a readable
subdirectory whose modification time is `mt entry`. -/
def dated_pair (base : Path) (mt : DirEntry → Nat) (entry : DirEntry) : Nat × Path :=
  (mt entry, base ++ [entry.name])

/-- The candidate the keep-latest loop builds from a retained pair of
positive size. -/
def keep_candidate (fs : FS) (category reason : String) (tp : Nat × Path) : Candidate :=
  Candidate.mk tp.2 (fs.size tp.2) category reason (some tp.1)

/-- `collect_whole_directory` from core.rs. -/
def collect_whole_directory (fs : FS) (path : Path)
    (category reason : String) (excludes : List Path) : List Candidate :=
  if is_excluded fs path excludes || !fs.pathExists path then []
  else
    let size := fs.size path
    if size = 0 then []
    else
      let last_used := (fs.meta path).bind fun metadata => metadata.modified
      [Candidate.mk path size category reason last_used]

/-- Outcome of one iteration of the entry loop in `collect_matching_dirs`
when it pushes a `Candidate`: the full chain of guards (file type,
symlink, exclusion, skip list, metadata, classification, nonzero size). -/
def entry_candidate (fs : FS) (category reason : String)
    (pattern_set skip_dirs : List String) (cutoff : Option Nat)
    (excludes : List Path) (current : Path) (entry : DirEntry) : Option Candidate :=
  match entry.ftype with
  | none => none
  | some ft =>
      if ft = FileType.symlink then none
      else if !(ft = FileType.dir) then none
      else
        let path := current ++ [entry.name]
        if is_excluded fs path excludes then none
        else if skip_dirs.contains entry.name then none
        else
          match fs.meta path with
          | none => none
          | some metadata =>
              match classify_project_dir entry.name reason pattern_set cutoff
                  metadata.modified with
              | some reason_text =>
                  let size := fs.size path
                  if 0 < size then
                    some (Candidate.mk path size category reason_text metadata.modified)
                  else none
              | none => none

/-- Outcome of one iteration of the entry loop in `collect_matching_dirs`
when it enqueues a subdirectory for further traversal (same guard chain;
only non-matching directories at depth below `max_depth` are enqueued). -/
def entry_enqueue (fs : FS) (reason : String)
    (pattern_set skip_dirs : List String) (cutoff : Option Nat)
    (max_depth : Nat) (excludes : List Path) (current : Path) (depth : Nat)
    (entry : DirEntry) : Option Path :=
  match entry.ftype with
  | none => none
  | some ft =>
      if ft = FileType.symlink then none
      else if !(ft = FileType.dir) then none
      else
        let path := current ++ [entry.name]
        if is_excluded fs path excludes then none
        else if skip_dirs.contains entry.name then none
        else
          match fs.meta path with
          | none => none
          | some metadata =>
              match classify_project_dir entry.name reason pattern_set cutoff
                  metadata.modified with
              | some _ => none
              | none => if depth < max_depth then some path else none

/-- Body of the entry loop of `collect_matching_dirs`: threads the
(candidates so far, queued paths so far) accumulator through one entry. -/
def process_step (fs : FS) (category reason : String)
    (pattern_set skip_dirs : List String) (cutoff : Option Nat)
    (max_depth : Nat) (excludes : List Path) (current : Path) (depth : Nat)
    (acc : List Candidate × List Path) (entry : DirEntry) :
    List Candidate × List Path :=
  match entry.ftype with
  | none => acc
  | some ft =>
      if ft = FileType.symlink then acc
      else if !(ft = FileType.dir) then acc
      else
        let path := current ++ [entry.name]
        if is_excluded fs path excludes then acc
        else if skip_dirs.contains entry.name then acc
        else
          match fs.meta path with
          | none => acc
          | some metadata =>
              match classify_project_dir entry.name reason pattern_set cutoff
                  metadata.modified with
              | some reason_text =>
                  let size := fs.size path
                  if 0 < size then
                    (acc.1 ++ [Candidate.mk path size category reason_text metadata.modified],
                     acc.2)
                  else acc
              | none =>
                  if depth < max_depth then (acc.1, acc.2 ++ [path]) else acc

/-- Processing of one popped `(current, depth)` queue element of the
breadth-first walk: exclusion check, `read_dir`, then the entry loop.
Returns the candidates pushed and the child directories enqueued. -/
def process_dir (fs : FS) (category reason : String)
    (pattern_set skip_dirs : List String) (cutoff : Option Nat)
    (max_depth : Nat) (excludes : List Path) (current : Path) (depth : Nat) :
    List Candidate × List Path :=
  if is_excluded fs current excludes then ([], [])
  else
    match fs.readDir current with
    | none => ([], [])
    | some entries =>
        entries.foldl
          (process_step fs category reason pattern_set skip_dirs cutoff max_depth
            excludes current depth)
          ([], [])

/-- The FIFO breadth-first loop of `collect_matching_dirs`, level by
level.  All queue elements pushed from depth `d` carry depth `d + 1`, so
the queue always holds (in order) the remainder of one level followed by
the next level, and processing the queue is processing whole levels in
order; candidates are emitted in the same order as the source loop.
The `depth > max_depth` skip of the source is the level guard here.
The structural `fuel` argument only makes the recursion structural:
`collect_matching_dirs` supplies `max_depth + 1`, enough for every level
the guard lets through, and the fuel-exhausted case coincides with the
guard (both yield `[]` at depth `max_depth + 1`). -/
def bfs_walk (fs : FS) (category reason : String)
    (pattern_set skip_dirs : List String) (cutoff : Option Nat)
    (max_depth : Nat) (excludes : List Path) :
    Nat → List Path → Nat → List Candidate
  | 0, _, _ => []
  | fuel + 1, level, depth =>
      if max_depth < depth then []
      else
        let steps := level.map fun current =>
          process_dir fs category reason pattern_set skip_dirs cutoff max_depth
            excludes current depth
        (steps.map Prod.fst).flatten ++
          bfs_walk fs category reason pattern_set skip_dirs cutoff max_depth excludes
            fuel (steps.map Prod.snd).flatten (depth + 1)

/-- `collect_matching_dirs` from core.rs. -/
def collect_matching_dirs (fs : FS) (roots : List Path)
    (category reason : String) (min_age_days max_depth : Nat)
    (excludes : List Path) : List Candidate :=
  let cutoff := scan_cutoff fs.now min_age_days
  (roots.map fun root =>
    if is_excluded fs root excludes || !fs.isDir root then []
    else
      bfs_walk fs category reason PROJECT_PATTERNS SKIP_DIR_NAMES cutoff max_depth
        excludes (max_depth + 1) [root] 0).flatten

/-- The seen-set loop of `dedupe_candidates` (`HashSet::insert` keeps
the first candidate per canonical key). -/
def dedupe_loop (fs : FS) : List Path → List Candidate → List Candidate
  | _, [] => []
  | seen, candidate :: rest =>
      let key := canonical_key fs candidate.path
      if key ∈ seen then dedupe_loop fs seen rest
      else candidate :: dedupe_loop fs (key :: seen) rest

/-- `dedupe_candidates` from core.rs. -/
def dedupe_candidates (fs : FS) (candidates : List Candidate) : List Candidate :=
  dedupe_loop fs [] candidates

/-- Rust `Ord::cmp` on a linear order. -/
def rustNatCmp (a b : Nat) : Ordering :=
  if a < b then Ordering.lt else if b < a then Ordering.gt else Ordering.eq

/-- Rust `Ord::cmp` on strings: byte-wise lexicographic comparison,
which on UTF-8 data coincides with code-point lexicographic order,
modelled structurally on the character list. -/
def cmpCharList : List Char → List Char → Ordering
  | [], [] => Ordering.eq
  | [], _ :: _ => Ordering.lt
  | _ :: _, [] => Ordering.gt
  | a :: as, b :: bs =>
      if a < b then Ordering.lt
      else if b < a then Ordering.gt
      else cmpCharList as bs

/-- Rust `String::cmp`, on the embedded strings. -/
def rustStrCmp (a b : String) : Ordering :=
  cmpCharList a.data b.data

/-- The comparator of the final `candidates.sort_by` in
`gather_candidates`: size descending, then category ascending, then
display name ascending. -/
def candidate_cmp (a b : Candidate) : Ordering :=
  match rustNatCmp b.size_bytes a.size_bytes with
  | Ordering.eq =>
      match rustStrCmp a.category b.category with
      | Ordering.eq => rustStrCmp a.display_name b.display_name
      | other => other
  | other => other

/-- Nonstrict sort relation induced by `candidate_cmp` ("a may precede b"). -/
def candidate_before (a b : Candidate) : Prop :=
  ¬ candidate_cmp a b = Ordering.gt

instance : DecidableRel candidate_before := fun a b =>
  inferInstanceAs (Decidable (¬ candidate_cmp a b = Ordering.gt))

/-- `build_cache_targets` from core.rs. -/
def build_cache_targets (home : Path) : List (Path × String × String) :=
  CACHE_TARGETS.map fun target => (home ++ target.1, target.2.1, target.2.2)

/-- `gather_candidates` from core.rs (reporter callbacks omitted: they
carry no information back into the result). -/
def gather_candidates (fs : FS) (config : ScanConfig) : List Candidate :=
  let home := (fs.home).getD ["."]
  let derived := collect_keep_latest fs (home ++ XCODE_DERIVED_DATA_REL)
    config.keep_latest_derived "Xcode" "Old DerivedData projects" config.exclude_paths
  let archives := collect_keep_latest fs (home ++ XCODE_ARCHIVES_REL)
    config.keep_latest_derived "Xcode" "Old Xcode archives" config.exclude_paths
  let core_sim := collect_whole_directory fs (home ++ CORE_SIMULATOR_CACHES_REL)
    "Xcode" "CoreSimulator caches" config.exclude_paths
  let brew := collect_keep_latest fs (home ++ HOMEBREW_CACHE_REL)
    config.keep_latest_cache "Homebrew" "Homebrew download cache" config.exclude_paths
  let caches := (build_cache_targets home).flatMap fun target =>
    collect_whole_directory fs target.1 target.2.1 target.2.2 config.exclude_paths
  let projects := collect_matching_dirs fs config.roots "Project" "Stale build or cache"
    config.min_age_days config.max_depth config.exclude_paths
  List.insertionSort candidate_before
    (dedupe_candidates fs (derived ++ archives ++ core_sim ++ brew ++ caches ++ projects))

/-- `scan` from core.rs. -/
def scan (fs : FS) (config : ScanConfig) : List Candidate :=
  gather_candidates fs config

/-- The mutable filesystem the cleanup executor acts on, abstracted as a
state type `σ` with one transition per `std::fs` mutation the source
performs.  `meta` models `safe_metadata` at cleanup time; `removeDirAll`
and `removeFile` model `fs::remove_dir_all` / `fs::remove_file`,
returning the successor state together with the error text of a failed
call (`none` = `Ok`). -/
structure DeleteModel (σ : Type) where
  meta : σ → Path → Option Metadata
  removeDirAll : σ → Path → σ × Option String
  removeFile : σ → Path → σ × Option String

/-- `delete_path` from core.rs: a vanished path (no metadata) is `Ok`;
directories are removed recursively, files singly. -/
def delete_path {σ : Type} (M : DeleteModel σ) (s : σ) (path : Path) :
    σ × Option String :=
  match M.meta s path with
  | none => (s, none)
  | some metadata =>
      if metadata.isDir then M.removeDirAll s path else M.removeFile s path

/-- The candidate loop of `cleanup_with_callback` (the progress callback
is omitted: it returns nothing and cannot alter the results). -/
def cleanup_go {σ : Type} (M : DeleteModel σ) (dry_run : Bool) :
    List Candidate → σ → List CleanupResult × σ
  | [], s => ([], s)
  | candidate :: rest, s =>
      let step : σ × Bool × Option String :=
        if dry_run then (s, true, none)
        else
          match delete_path M s candidate.path with
          | (s2, none) => (s2, true, none)
          | (s2, some err) => (s2, false, some err)
      let next := cleanup_go M dry_run rest step.1
      (CleanupResult.mk candidate step.2.1 step.2.2 :: next.1, next.2)

/-- `cleanup` from core.rs, with the filesystem state threaded explicitly. -/
def cleanup {σ : Type} (M : DeleteModel σ) (candidates : List Candidate)
    (dry_run : Bool) (s : σ) : List CleanupResult × σ :=
  cleanup_go M dry_run candidates s

/-! ### Concrete fixtures for witnesses and counterexamples -/

/-- A candidate carrying the largest representable `u64` size. -/
def bigCandidate : Candidate :=
  Candidate.mk ["big"] (U64_MOD - 1) "Xcode" "pathological" none

/-- Two maximal candidates: their exact total exceeds `u64`. -/
def bigList : List Candidate := [bigCandidate, bigCandidate]

/-- Cleanup model for witnesses: state is a step counter; the empty path
has no metadata (vanished), every other path is a file whose removal
fails with a fixed error text. -/
def delModelW : DeleteModel Nat :=
  DeleteModel.mk
    (fun _ path => if path = [] then none else some (Metadata.mk false none))
    (fun s _ => (s, none))
    (fun s _ => (s + 1, some "permission denied"))

/-- A candidate whose deletion the witness model refuses. -/
def candW : Candidate := Candidate.mk ["locked"] 7 "Xcode" "old" none

/-- Concrete scan filesystem: one root directory `r` containing a
single stale `build` subdirectory of 500 bytes, modified at time 5;
canonicalization always fails (raw-path fallback); nothing else
exists. -/
def fsPrj : FS :=
  FS.mk none (fun _ => none) (fun _ => false) (fun p => p == ["r"])
    (fun p => if p = ["r"] then some [DirEntry.mk "build" (some FileType.dir)] else none)
    (fun p => if p = ["r", "build"] then some (Metadata.mk true (some 5)) else none)
    (fun p => if p = ["r", "build"] then 500 else 0)
    1000000

/-- The candidate `fsPrj` scans produce. -/
def cPrj : Candidate :=
  Candidate.mk ["r", "build"] 500 "Project" "Stale build or cache (build)" (some 5)

/-- Scan configuration over `fsPrj` with no excludes. -/
def cfgPrj : ScanConfig := ScanConfig.mk [["r"]] 0 1 0 0 []

/-- Scan configuration over `fsPrj` with one (unrelated) exclude path. -/
def cfgPrjX : ScanConfig := ScanConfig.mk [["r"]] 0 1 0 0 [["x"]]

/-- Concrete keep-latest filesystem: a base directory with exactly the
three subdirectories A (oldest), B, C (newest), each of size 10. -/
def fsKeep : FS :=
  FS.mk none (fun _ => none) (fun p => p == ["base"]) (fun _ => false)
    (fun p => if p = ["base"] then
        some [DirEntry.mk "A" none, DirEntry.mk "B" none, DirEntry.mk "C" none]
      else none)
    (fun p =>
      if p = ["base", "A"] then some (Metadata.mk true (some 1))
      else if p = ["base", "B"] then some (Metadata.mk true (some 2))
      else if p = ["base", "C"] then some (Metadata.mk true (some 3))
      else none)
    (fun p =>
      if p = ["base", "A"] ∨ p = ["base", "B"] ∨ p = ["base", "C"] then 10 else 0)
    0

/-- The entries `fsKeep` lists under its base directory. -/
def entriesKeep : List DirEntry :=
  [DirEntry.mk "A" none, DirEntry.mk "B" none, DirEntry.mk "C" none]

/-- Modification times of the `fsKeep` subdirectories. -/
def mtKeep : DirEntry → Nat :=
  fun e => if e.name = "A" then 1 else if e.name = "B" then 2 else 3

/-- Concrete filesystem whose only scannable content is an Xcode
Archives directory with two dated subdirectories; every other fixed
target is absent. -/
def fsArch : FS :=
  FS.mk none (fun _ => none)
    (fun p => p == [".", "Library", "Developer", "Xcode", "Archives"])
    (fun _ => false)
    (fun p => if p = [".", "Library", "Developer", "Xcode", "Archives"] then
        some [DirEntry.mk "old1" none, DirEntry.mk "old2" none]
      else none)
    (fun p =>
      if p = [".", "Library", "Developer", "Xcode", "Archives", "old1"] then
        some (Metadata.mk true (some 1))
      else if p = [".", "Library", "Developer", "Xcode", "Archives", "old2"] then
        some (Metadata.mk true (some 2))
      else none)
    (fun p =>
      if p = [".", "Library", "Developer", "Xcode", "Archives", "old1"]
          ∨ p = [".", "Library", "Developer", "Xcode", "Archives", "old2"] then 7
      else 0)
    0

-- THEOREMS

/-- Helper: folding the wrapping step from an initial accumulator that is
already reduced modulo `U64_MOD` computes the plain sum modulo `U64_MOD`. -/
theorem foldl_wrap_eq_mod (l : List Candidate) :
    ∀ a : Nat,
      l.foldl (fun acc c => (acc + c.size_bytes) % U64_MOD) (a % U64_MOD) =
        (l.foldl (fun acc c => acc + c.size_bytes) a) % U64_MOD := by
  induction l with
  | nil => intro a; rfl
  | cons c rest ih =>
      intro a
      simp only [List.foldl_cons]
      rw [Nat.mod_add_mod, ih (a + c.size_bytes)]

/-- C2 (amended): `scan_total_size` is the sum of the `size_bytes` fields
taken modulo 2 ^ 64 (Rust `u64` addition wraps on overflow rather than
saturating); whenever the exact total is representable it equals the
exact sum. -/
theorem scan_total_size_wraps (candidates : List Candidate) :
    scan_total_size candidates =
        (candidates.foldl (fun acc c => acc + c.size_bytes) 0) % U64_MOD
      ∧ ((candidates.foldl (fun acc c => acc + c.size_bytes) 0) < U64_MOD →
          scan_total_size candidates =
            candidates.foldl (fun acc c => acc + c.size_bytes) 0) := by
  have h : scan_total_size candidates =
      (candidates.foldl (fun acc c => acc + c.size_bytes) 0) % U64_MOD := by
    have h0 := foldl_wrap_eq_mod candidates 0
    rw [Nat.zero_mod] at h0
    exact h0
  exact ⟨h, fun hlt => by rw [h, Nat.mod_eq_of_lt hlt]⟩

/-- C2 (counterexample): on two maximal-size candidates the code's total
differs from the specified saturating total, so `scan_total_size` does
not saturate. -/
theorem scan_total_size_not_saturating :
    ¬ scan_total_size bigList = scan_total_size_saturating bigList := by decide

/-- C2 (witness): a concrete in-range list where the amended theorem
applies and the wrapped total equals the exact total. -/
theorem scan_total_size_wraps_witness :
    [bigCandidate].foldl (fun acc c => acc + c.size_bytes) 0 < U64_MOD
      ∧ scan_total_size [bigCandidate] =
          [bigCandidate].foldl (fun acc c => acc + c.size_bytes) 0 :=
  ⟨by decide, (scan_total_size_wraps [bigCandidate]).2 (by decide)⟩

/-- C5: `__pycache__` classifies unconditionally (yielding the base
reason); any other name classifies, with the annotated reason, exactly
when it is in the pattern set or ends with ".egg-info" and, whenever a
cutoff is configured and a modification time is known, the modification
time is strictly older than the cutoff; such a name never yields any
other reason; and `min_age_days = 0` configures no cutoff at all. -/
theorem classify_project_dir_spec (name base_reason : String)
    (pattern_set : List String) (cutoff modified : Option Nat) :
    (classify_project_dir "__pycache__" base_reason pattern_set cutoff modified =
        some base_reason)
      ∧ (¬ name = "__pycache__" →
          (classify_project_dir name base_reason pattern_set cutoff modified =
              some (base_reason ++ " (" ++ name ++ ")")
            ↔ ((pattern_set.contains name || str_ends_with name ".egg-info") = true
                ∧ ∀ limit mtime, cutoff = some limit → modified = some mtime →
                    mtime < limit)))
      ∧ (¬ name = "__pycache__" →
          (classify_project_dir name base_reason pattern_set cutoff modified = none
            ∨ classify_project_dir name base_reason pattern_set cutoff modified =
                some (base_reason ++ " (" ++ name ++ ")")))
      ∧ (∀ now, scan_cutoff now 0 = none) := by
  refine ⟨by simp [classify_project_dir], fun h => ?_, fun h => ?_, fun now => by
    simp [scan_cutoff]⟩
  · unfold classify_project_dir
    rw [if_neg h]
    rcases cutoff with _ | limit <;> rcases modified with _ | mtime <;>
      cases hb : (pattern_set.contains name || str_ends_with name ".egg-info")
    · simp [hb]
    · simp [hb]
    · simp [hb]
    · simp [hb]
    · simp [hb]
    · simp [hb]
    · simp [hb]
    · by_cases hlim : limit ≤ mtime
      · simp [hb, hlim]
      · simp [hb, hlim]
        omega
  · unfold classify_project_dir
    rw [if_neg h]
    rcases cutoff with _ | limit <;> rcases modified with _ | mtime <;>
      cases hb : (pattern_set.contains name || str_ends_with name ".egg-info")
    · simp [hb]
    · simp [hb]
    · simp [hb]
    · simp [hb]
    · simp [hb]
    · simp [hb]
    · simp [hb]
    · by_cases hlim : limit ≤ mtime <;> simp [hb, hlim]

/-- C5 (witness): "build" is a pattern name distinct from `__pycache__`;
with cutoff 100 and modification time 50 it classifies with the
annotated reason. -/
theorem classify_project_dir_spec_witness :
    ¬ "build" = "__pycache__"
      ∧ classify_project_dir "build" "Stale build or cache" PROJECT_PATTERNS
          (some 100) (some 50) = some "Stale build or cache (build)" := by
  refine ⟨by decide, ?_⟩
  have h := (classify_project_dir_spec "build" "Stale build or cache" PROJECT_PATTERNS
    (some 100) (some 50)).2.1 (by decide)
  exact h.mpr ⟨by decide, fun l m hl hm => by cases hl; cases hm; omega⟩

/-- Helper: the dry-run loop touches nothing and marks every candidate
successful. -/
theorem cleanup_go_dry {σ : Type} (M : DeleteModel σ) (l : List Candidate) :
    ∀ s : σ, cleanup_go M true l s = (l.map fun c => CleanupResult.mk c true none, s) := by
  induction l with
  | nil => intro s; rfl
  | cons c rest ih =>
      intro s
      simp only [cleanup_go, if_true, List.map_cons]
      rw [ih s]

/-- C9: a dry-run cleanup performs no state transition at all (for every
model of the mutable filesystem, the final state is the initial one, so
no delete operation can have been invoked) and returns one result per
candidate, each successful and carrying no error text. -/
theorem cleanup_dry_run_pure :
    ∀ (σ : Type) (M : DeleteModel σ) (candidates : List Candidate) (s : σ),
      cleanup M candidates true s =
        (candidates.map fun c => CleanupResult.mk c true none, s) := by
  intro σ M candidates s
  exact cleanup_go_dry M candidates s

/-- Helper: the real-run loop yields exactly one result per candidate,
wrapping the input candidates in order. -/
theorem cleanup_go_real_candidates {σ : Type} (M : DeleteModel σ)
    (l : List Candidate) :
    ∀ s : σ, ((cleanup_go M false l s).1).map CleanupResult.candidate = l := by
  induction l with
  | nil => intro s; rfl
  | cons c rest ih =>
      intro s
      simp only [cleanup_go, Bool.false_eq_true, if_false, List.map_cons]
      rw [ih]

/-- Helper: every real-run result is either a success without error text
or a failure with error text. -/
theorem cleanup_go_real_outcomes {σ : Type} (M : DeleteModel σ)
    (l : List Candidate) :
    ∀ (s : σ) (r : CleanupResult), r ∈ (cleanup_go M false l s).1 →
      (r.success = true ∧ r.error = none)
        ∨ (r.success = false ∧ ∃ e, r.error = some e) := by
  induction l with
  | nil => intro s r hr; cases hr
  | cons c rest ih =>
      intro s r hr
      rcases hd : delete_path M s c.path with ⟨s2, err⟩
      rcases err with _ | e
      · simp only [cleanup_go, Bool.false_eq_true, if_false, hd, List.mem_cons] at hr
        rcases hr with hr | hr
        · subst hr; simp
        · exact ih s2 r hr
      · simp only [cleanup_go, Bool.false_eq_true, if_false, hd, List.mem_cons] at hr
        rcases hr with hr | hr
        · subst hr; simp
        · exact ih s2 r hr

/-- C8: a real (non-dry) cleanup returns exactly one result per input
candidate, in input order, never short-circuiting; a path with no
metadata (already gone) deletes as a success; a failing delete is
recorded as a failure carrying the underlying error text while
processing continues with the remaining candidates; and every result is
a success without error text or a failure with one. -/
theorem cleanup_real_run :
    (∀ (σ : Type) (M : DeleteModel σ) (candidates : List Candidate) (s : σ),
        ((cleanup M candidates false s).1).map CleanupResult.candidate = candidates)
      ∧ (∀ (σ : Type) (M : DeleteModel σ) (s : σ) (path : Path),
          M.meta s path = none → delete_path M s path = (s, none))
      ∧ (∀ (σ : Type) (M : DeleteModel σ) (s : σ) (c : Candidate)
            (rest : List Candidate) (s2 : σ) (err : String),
          delete_path M s c.path = (s2, some err) →
            (cleanup M (c :: rest) false s).1 =
              CleanupResult.mk c false (some err) :: (cleanup M rest false s2).1)
      ∧ (∀ (σ : Type) (M : DeleteModel σ) (candidates : List Candidate) (s : σ)
            (r : CleanupResult), r ∈ (cleanup M candidates false s).1 →
          (r.success = true ∧ r.error = none)
            ∨ (r.success = false ∧ ∃ e, r.error = some e)) := by
  refine ⟨fun σ M candidates s => cleanup_go_real_candidates M candidates s,
    fun σ M s path h => ?_,
    fun σ M s c rest s2 err h => ?_,
    fun σ M candidates s r hr => cleanup_go_real_outcomes M candidates s r hr⟩
  · unfold delete_path
    rw [h]
  · show (cleanup_go M false (c :: rest) s).1 = _
    simp only [cleanup_go, Bool.false_eq_true, if_false, h]
    rfl

/-- C8 (witness): in the concrete model, the empty path has no metadata
and deletes as a success; the locked candidate's deletion fails with
"permission denied", is recorded as such, and the batch continues. -/
theorem cleanup_real_run_witness :
    (delModelW.meta 0 [] = none ∧ delete_path delModelW 0 [] = (0, none))
      ∧ (delete_path delModelW 0 candW.path = (1, some "permission denied")
          ∧ (cleanup delModelW [candW] false 0).1 =
              CleanupResult.mk candW false (some "permission denied") ::
                (cleanup delModelW [] false 1).1) := by
  refine ⟨⟨by decide, cleanup_real_run.2.1 Nat delModelW 0 [] (by decide)⟩,
    by decide, cleanup_real_run.2.2.1 Nat delModelW 0 candW [] 1 "permission denied"
      (by decide)⟩

/-! ### Order lemmas for the sort comparators -/

theorem rustNatCmp_eq_lt {a b : Nat} : rustNatCmp a b = Ordering.lt ↔ a < b := by
  unfold rustNatCmp
  split
  · simp [*]
  · split <;> simp <;> omega

theorem rustNatCmp_eq_gt {a b : Nat} : rustNatCmp a b = Ordering.gt ↔ b < a := by
  unfold rustNatCmp
  split
  · simp; omega
  · split <;> simp <;> omega

theorem rustNatCmp_eq_eq {a b : Nat} : rustNatCmp a b = Ordering.eq ↔ a = b := by
  unfold rustNatCmp
  split
  · simp; omega
  · split <;> simp <;> omega

theorem cmpCharList_eq_eq (a : List Char) :
    ∀ b, cmpCharList a b = Ordering.eq ↔ a = b := by
  induction a with
  | nil => intro b; cases b <;> simp [cmpCharList]
  | cons x xs ih =>
      intro b
      cases b with
      | nil => simp [cmpCharList]
      | cons y ys =>
          unfold cmpCharList
          rcases lt_trichotomy x y with h | h | h
          · rw [if_pos h]
            constructor
            · intro hc; cases hc
            · intro he
              injection he with he1 _
              exact absurd he1 (ne_of_lt h)
          · subst h
            rw [if_neg (lt_irrefl x), if_neg (lt_irrefl x)]
            rw [ih ys]
            simp
          · rw [if_neg (not_lt.mpr (le_of_lt h)), if_pos h]
            constructor
            · intro hc; cases hc
            · intro he
              injection he with he1 _
              exact absurd he1 (ne_of_gt h)

theorem cmpCharList_swap (a : List Char) :
    ∀ b, cmpCharList b a = (cmpCharList a b).swap := by
  induction a with
  | nil => intro b; cases b <;> simp [cmpCharList, Ordering.swap]
  | cons x xs ih =>
      intro b
      cases b with
      | nil => simp [cmpCharList, Ordering.swap]
      | cons y ys =>
          show cmpCharList (y :: ys) (x :: xs) = (cmpCharList (x :: xs) (y :: ys)).swap
          unfold cmpCharList
          rcases lt_trichotomy x y with h | h | h
          · rw [if_neg (not_lt.mpr (le_of_lt h)), if_pos h, if_pos h]
            rfl
          · subst h
            rw [if_neg (lt_irrefl x), if_neg (lt_irrefl x), if_neg (lt_irrefl x),
              if_neg (lt_irrefl x)]
            exact ih ys
          · rw [if_pos h, if_neg (not_lt.mpr (le_of_lt h)), if_pos h]
            rfl

theorem cmpCharList_lt_trans (a : List Char) :
    ∀ b c, cmpCharList a b = Ordering.lt → cmpCharList b c = Ordering.lt →
      cmpCharList a c = Ordering.lt := by
  induction a with
  | nil =>
      intro b c h1 h2
      cases b with
      | nil => simp [cmpCharList] at h1
      | cons y ys =>
          cases c with
          | nil => simp [cmpCharList] at h2
          | cons z zs => rfl
  | cons x xs ih =>
      intro b c h1 h2
      cases b with
      | nil => simp [cmpCharList] at h1
      | cons y ys =>
          cases c with
          | nil => simp [cmpCharList] at h2
          | cons z zs =>
              unfold cmpCharList at h1 h2 ⊢
              by_cases hxy : x < y
              · have hxz : x < z := by
                  by_cases hyz : y < z
                  · exact lt_trans hxy hyz
                  · by_cases hzy : z < y
                    · rw [if_neg hyz, if_pos hzy] at h2; cases h2
                    · have : y = z := le_antisymm (not_lt.mp hzy) (not_lt.mp hyz)
                      exact this ▸ hxy
                rw [if_pos hxz]
              · by_cases hyx : y < x
                · rw [if_neg hxy, if_pos hyx] at h1; cases h1
                · have hxey : x = y := le_antisymm (not_lt.mp hyx) (not_lt.mp hxy)
                  subst hxey
                  rw [if_neg hxy, if_neg hyx] at h1
                  by_cases hxz : x < z
                  · rw [if_pos hxz]
                  · by_cases hzx : z < x
                    · rw [if_neg hxz, if_pos hzx] at h2; cases h2
                    · rw [if_neg hxz, if_neg hzx] at h2 ⊢
                      exact ih ys zs h1 h2

theorem rustStrCmp_eq_eq {s t : String} : rustStrCmp s t = Ordering.eq ↔ s = t := by
  unfold rustStrCmp
  rw [cmpCharList_eq_eq]
  constructor
  · intro h
    cases s
    cases t
    exact congrArg String.mk h
  · intro h
    rw [h]

theorem rustStrCmp_swap (s t : String) : rustStrCmp t s = (rustStrCmp s t).swap := by
  unfold rustStrCmp
  exact cmpCharList_swap s.data t.data

theorem rustStrCmp_lt_trans {s t u : String} (h1 : rustStrCmp s t = Ordering.lt)
    (h2 : rustStrCmp t u = Ordering.lt) : rustStrCmp s u = Ordering.lt :=
  cmpCharList_lt_trans s.data t.data u.data h1 h2

theorem rustStrCmp_gt_iff {s t : String} :
    rustStrCmp s t = Ordering.gt ↔ rustStrCmp t s = Ordering.lt := by
  rw [rustStrCmp_swap s t]
  cases rustStrCmp s t <;> simp [Ordering.swap]

/-- Relation stated by the spec for the final ordering: size descending,
then category ascending, then full path string ascending. -/
theorem candidate_before_iff (a b : Candidate) :
    candidate_before a b ↔
      (b.size_bytes < a.size_bytes
        ∨ (a.size_bytes = b.size_bytes
            ∧ (rustStrCmp a.category b.category = Ordering.lt
                ∨ (a.category = b.category
                    ∧ (rustStrCmp a.display_name b.display_name = Ordering.lt
                        ∨ a.display_name = b.display_name))))) := by
  unfold candidate_before candidate_cmp
  by_cases h1 : b.size_bytes < a.size_bytes
  · rw [rustNatCmp_eq_lt.mpr h1]
    simp [h1]
  · by_cases h2 : a.size_bytes < b.size_bytes
    · rw [rustNatCmp_eq_gt.mpr h2]
      simp
      omega
    · have heq : b.size_bytes = a.size_bytes := le_antisymm (not_lt.mp h2) (not_lt.mp h1)
      rw [rustNatCmp_eq_eq.mpr heq]
      rcases hc : rustStrCmp a.category b.category with _ | _ | _
      · simp [heq.symm, hc]
      · have hceq : a.category = b.category := rustStrCmp_eq_eq.mp hc
        rcases hd : rustStrCmp a.display_name b.display_name with _ | _ | _
        · simp [heq.symm, hc, hceq, hd]
        · have hdeq : a.display_name = b.display_name := rustStrCmp_eq_eq.mp hd
          simp [heq.symm, hc, hceq, hd, hdeq]
        · have hdne : ¬ a.display_name = b.display_name := by
            intro he
            rw [rustStrCmp_eq_eq.mpr he] at hd
            cases hd
          simp [heq.symm, hc, hceq, hd, hdne]
      · have hcne : ¬ a.category = b.category := by
          intro he
          rw [rustStrCmp_eq_eq.mpr he] at hc
          cases hc
        simp [heq.symm, hc, hcne]

instance : IsTotal Candidate candidate_before := by
  constructor
  intro a b
  rw [candidate_before_iff, candidate_before_iff]
  rcases lt_trichotomy b.size_bytes a.size_bytes with h | h | h
  · exact Or.inl (Or.inl h)
  · rcases hc : rustStrCmp a.category b.category with _ | _ | _
    · exact Or.inl (Or.inr ⟨h.symm, Or.inl rfl⟩)
    · have hceq : a.category = b.category := rustStrCmp_eq_eq.mp hc
      rcases hd : rustStrCmp a.display_name b.display_name with _ | _ | _
      · exact Or.inl (Or.inr ⟨h.symm, Or.inr ⟨hceq, Or.inl rfl⟩⟩)
      · exact Or.inl (Or.inr ⟨h.symm, Or.inr ⟨hceq, Or.inr (rustStrCmp_eq_eq.mp hd)⟩⟩)
      · exact Or.inr (Or.inr ⟨h, Or.inr ⟨hceq.symm, Or.inl (rustStrCmp_gt_iff.mp hd)⟩⟩)
    · exact Or.inr (Or.inr ⟨h, Or.inl (rustStrCmp_gt_iff.mp hc)⟩)
  · exact Or.inr (Or.inl h)

instance : IsTrans Candidate candidate_before := by
  constructor
  intro a b c hab hbc
  rw [candidate_before_iff] at hab hbc ⊢
  rcases hab with hab | ⟨hab1, hab2⟩
  · rcases hbc with hbc | ⟨hbc1, hbc2⟩
    · exact Or.inl (lt_trans hbc hab)
    · exact Or.inl (hbc1 ▸ hab)
  · rcases hbc with hbc | ⟨hbc1, hbc2⟩
    · exact Or.inl (hab1 ▸ hbc)
    · refine Or.inr ⟨hab1.trans hbc1, ?_⟩
      rcases hab2 with hab2 | ⟨habc, habd⟩
      · rcases hbc2 with hbc2 | ⟨hbcc, hbcd⟩
        · exact Or.inl (rustStrCmp_lt_trans hab2 hbc2)
        · exact Or.inl (hbcc ▸ hab2)
      · rcases hbc2 with hbc2 | ⟨hbcc, hbcd⟩
        · exact Or.inl (habc ▸ hbc2)
        · refine Or.inr ⟨habc.trans hbcc, ?_⟩
          rcases habd with habd | habd
          · rcases hbcd with hbcd | hbcd
            · exact Or.inl (rustStrCmp_lt_trans habd hbcd)
            · exact Or.inl (hbcd ▸ habd)
          · rcases hbcd with hbcd | hbcd
            · exact Or.inl (habd ▸ hbcd)
            · exact Or.inr (habd.trans hbcd)

/-- C7: the final candidate list of `scan` is pairwise ordered by size
descending, ties by category ascending (byte-lexicographic), remaining
ties by the full path string ascending.  `scan` is a pure function of
the modelled filesystem state and the configuration, so two scans of
unchanged state with identical config return this identically ordered
list. -/
theorem scan_sorted_deterministic (fs : FS) (config : ScanConfig) :
    (scan fs config).Pairwise (fun a b =>
      b.size_bytes < a.size_bytes
        ∨ (a.size_bytes = b.size_bytes
            ∧ (rustStrCmp a.category b.category = Ordering.lt
                ∨ (a.category = b.category
                    ∧ (rustStrCmp a.display_name b.display_name = Ordering.lt
                        ∨ a.display_name = b.display_name))))) := by
  have hs : (scan fs config).Pairwise candidate_before :=
    List.sorted_insertionSort candidate_before _
  exact hs.imp fun hab => (candidate_before_iff _ _).mp hab

/-! ### Membership infrastructure for the discovery strategies -/

/-- Helper: a candidate produced by one entry of the walk loop is the
entry's subdirectory of the current directory, is not excluded, and has
positive size. -/
theorem entry_candidate_spec {fs : FS} {category reason : String}
    {pattern_set skip_dirs : List String} {cutoff : Option Nat}
    {excludes : List Path} {current : Path} {entry : DirEntry} {c : Candidate}
    (h : entry_candidate fs category reason pattern_set skip_dirs cutoff excludes
        current entry = some c) :
    c.path = current ++ [entry.name]
      ∧ is_excluded fs c.path excludes = false
      ∧ 0 < c.size_bytes := by
  unfold entry_candidate at h
  rcases hft : entry.ftype with _ | ft <;> simp only [hft] at h
  · cases h
  · by_cases h1 : ft = FileType.symlink
    · rw [if_pos h1] at h; cases h
    · rw [if_neg h1] at h
      by_cases h2 : ft = FileType.dir
      · simp only [h2, decide_True, Bool.not_true, Bool.false_eq_true, if_false] at h
        rcases hex : is_excluded fs (current ++ [entry.name]) excludes
        · simp only [hex, Bool.false_eq_true, if_false] at h
          rcases hsk : skip_dirs.contains entry.name
          · simp only [hsk, Bool.false_eq_true, if_false] at h
            rcases hm : fs.meta (current ++ [entry.name]) with _ | metadata <;>
              simp only [hm] at h
            · cases h
            · rcases hcl : classify_project_dir entry.name reason pattern_set cutoff
                  metadata.modified with _ | reason_text <;> simp only [hcl] at h
              · cases h
              · by_cases hsz : 0 < fs.size (current ++ [entry.name])
                · rw [if_pos hsz] at h
                  injection h with h
                  subst h
                  exact ⟨rfl, hex, hsz⟩
                · rw [if_neg hsz] at h; cases h
          · simp only [hsk, if_true] at h; cases h
        · simp only [hex, if_true] at h; cases h
      · have hd2 : (decide (ft = FileType.dir)) = false := decide_eq_false h2
        simp only [hd2, Bool.not_false, if_true] at h
        cases h

/-- Helper: a path enqueued by one entry of the walk loop is that
entry's subdirectory of the current directory and is enqueued only while
the current depth is strictly below the depth bound. -/
theorem entry_enqueue_spec {fs : FS} {reason : String}
    {pattern_set skip_dirs : List String} {cutoff : Option Nat}
    {max_depth : Nat} {excludes : List Path} {current : Path} {depth : Nat}
    {entry : DirEntry} {p : Path}
    (h : entry_enqueue fs reason pattern_set skip_dirs cutoff max_depth excludes
        current depth entry = some p) :
    p = current ++ [entry.name] ∧ depth < max_depth := by
  unfold entry_enqueue at h
  rcases hft : entry.ftype with _ | ft <;> simp only [hft] at h
  · cases h
  · by_cases h1 : ft = FileType.symlink
    · rw [if_pos h1] at h; cases h
    · rw [if_neg h1] at h
      by_cases h2 : ft = FileType.dir
      · simp only [h2, decide_True, Bool.not_true, Bool.false_eq_true, if_false] at h
        rcases hex : is_excluded fs (current ++ [entry.name]) excludes
        · simp only [hex, Bool.false_eq_true, if_false] at h
          rcases hsk : skip_dirs.contains entry.name
          · simp only [hsk, Bool.false_eq_true, if_false] at h
            rcases hm : fs.meta (current ++ [entry.name]) with _ | metadata <;>
              simp only [hm] at h
            · cases h
            · rcases hcl : classify_project_dir entry.name reason pattern_set cutoff
                  metadata.modified with _ | reason_text <;> simp only [hcl] at h
              · by_cases hdep : depth < max_depth
                · rw [if_pos hdep] at h
                  injection h with h
                  exact ⟨h.symm, hdep⟩
                · rw [if_neg hdep] at h; cases h
              · cases h
          · simp only [hsk, if_true] at h; cases h
        · simp only [hex, if_true] at h; cases h
      · have hd2 : (decide (ft = FileType.dir)) = false := decide_eq_false h2
        simp only [hd2, Bool.not_false, if_true] at h
        cases h

/-- Helper: one step of the walk loop appends the entry's candidate (if
any) to the accumulated candidates and the entry's enqueued path (if
any) to the accumulated queue. -/
theorem process_step_eq (fs : FS) (category reason : String)
    (pattern_set skip_dirs : List String) (cutoff : Option Nat)
    (max_depth : Nat) (excludes : List Path) (current : Path) (depth : Nat)
    (acc : List Candidate × List Path) (entry : DirEntry) :
    process_step fs category reason pattern_set skip_dirs cutoff max_depth excludes
        current depth acc entry =
      (acc.1 ++ (entry_candidate fs category reason pattern_set skip_dirs cutoff
          excludes current entry).toList,
       acc.2 ++ (entry_enqueue fs reason pattern_set skip_dirs cutoff max_depth
          excludes current depth entry).toList) := by
  unfold process_step entry_candidate entry_enqueue
  rcases hft : entry.ftype with _ | ft <;> simp only [hft]
  · simp
  · by_cases h1 : ft = FileType.symlink
    · simp [h1]
    · rw [if_neg h1, if_neg h1, if_neg h1]
      by_cases h2 : ft = FileType.dir
      · simp only [h2, decide_True, Bool.not_true, Bool.false_eq_true, if_false]
        rcases hex : is_excluded fs (current ++ [entry.name]) excludes
        · simp only [hex, Bool.false_eq_true, if_false]
          rcases hsk : skip_dirs.contains entry.name
          · simp only [hsk, Bool.false_eq_true, if_false]
            rcases hm : fs.meta (current ++ [entry.name]) with _ | metadata <;>
              simp only [hm]
            · simp
            · rcases hcl : classify_project_dir entry.name reason pattern_set cutoff
                  metadata.modified with _ | reason_text <;> simp only [hcl]
              · by_cases hdep : depth < max_depth
                · simp [hdep]
                · simp [hdep]
              · by_cases hsz : 0 < fs.size (current ++ [entry.name])
                · simp [hsz]
                · simp [hsz]
          · simp [hsk]
        · simp [hex]
      · have hd2 : (decide (ft = FileType.dir)) = false := decide_eq_false h2
        simp [hd2]

/-- Helper: the whole entry loop is the two filterMaps of its per-entry
outcomes. -/
theorem foldl_process_step_eq (fs : FS) (category reason : String)
    (pattern_set skip_dirs : List String) (cutoff : Option Nat)
    (max_depth : Nat) (excludes : List Path) (current : Path) (depth : Nat)
    (entries : List DirEntry) :
    ∀ acc : List Candidate × List Path,
      entries.foldl (process_step fs category reason pattern_set skip_dirs cutoff
          max_depth excludes current depth) acc =
        (acc.1 ++ entries.filterMap (entry_candidate fs category reason pattern_set
            skip_dirs cutoff excludes current),
         acc.2 ++ entries.filterMap (entry_enqueue fs reason pattern_set skip_dirs
            cutoff max_depth excludes current depth)) := by
  induction entries with
  | nil => intro acc; simp
  | cons entry rest ih =>
      intro acc
      rw [List.foldl_cons, ih, process_step_eq]
      rcases hec : entry_candidate fs category reason pattern_set skip_dirs cutoff
          excludes current entry with _ | c <;>
        rcases heq : entry_enqueue fs reason pattern_set skip_dirs cutoff max_depth
            excludes current depth entry with _ | p <;>
        simp [List.filterMap_cons, hec, heq]

/-- Helper: `process_dir` in terms of the per-entry outcomes. -/
theorem process_dir_eq (fs : FS) (category reason : String)
    (pattern_set skip_dirs : List String) (cutoff : Option Nat)
    (max_depth : Nat) (excludes : List Path) (current : Path) (depth : Nat) :
    process_dir fs category reason pattern_set skip_dirs cutoff max_depth excludes
        current depth =
      (if is_excluded fs current excludes then ([], [])
       else
         match fs.readDir current with
         | none => ([], [])
         | some entries =>
             (entries.filterMap (entry_candidate fs category reason pattern_set
                 skip_dirs cutoff excludes current),
              entries.filterMap (entry_enqueue fs reason pattern_set skip_dirs
                 cutoff max_depth excludes current depth))) := by
  unfold process_dir
  rcases hex : is_excluded fs current excludes
  · simp only [hex, Bool.false_eq_true, if_false]
    rcases hrd : fs.readDir current with _ | entries
    · simp only [hrd]
    · simp only [hrd]
      rw [foldl_process_step_eq]
      simp
  · simp [hex]

/-- Helper: every candidate emitted by the bounded walk comes from some
entry of some processed directory. -/
theorem mem_bfs_walk {fs : FS} {category reason : String}
    {pattern_set skip_dirs : List String} {cutoff : Option Nat}
    {max_depth : Nat} {excludes : List Path} :
    ∀ (fuel : Nat) (level : List Path) (depth : Nat) (c : Candidate),
      c ∈ bfs_walk fs category reason pattern_set skip_dirs cutoff max_depth
          excludes fuel level depth →
        ∃ current entry,
          entry_candidate fs category reason pattern_set skip_dirs cutoff excludes
            current entry = some c := by
  intro fuel
  induction fuel with
  | zero => intro level depth c hc; cases hc
  | succ fuel ih =>
      intro level depth c hc
      unfold bfs_walk at hc
      by_cases hd : max_depth < depth
      · rw [if_pos hd] at hc; cases hc
      · rw [if_neg hd] at hc
        rcases List.mem_append.mp hc with hc | hc
        · rcases List.mem_flatten.mp hc with ⟨l, hl, hcl⟩
          rcases List.mem_map.mp hl with ⟨pd, hpd, rfl⟩
          rcases List.mem_map.mp hpd with ⟨current, hcur, rfl⟩
          rw [process_dir_eq] at hcl
          rcases hex : is_excluded fs current excludes
          · simp only [hex, Bool.false_eq_true, if_false] at hcl
            rcases hrd : fs.readDir current with _ | entries <;>
              simp only [hrd] at hcl
            · cases hcl
            · rcases List.mem_filterMap.mp hcl with ⟨entry, _, hentry⟩
              exact ⟨current, entry, hentry⟩
          · simp only [hex, if_true] at hcl
            cases hcl
        · exact ih _ _ c hc

/-- Helper: every candidate of `collect_matching_dirs` is an immediate
entry of a processed directory: not excluded and of positive size. -/
theorem mem_collect_matching_dirs {fs : FS} {roots : List Path}
    {category reason : String} {min_age_days max_depth : Nat}
    {excludes : List Path} {c : Candidate}
    (hc : c ∈ collect_matching_dirs fs roots category reason min_age_days
        max_depth excludes) :
    is_excluded fs c.path excludes = false ∧ 0 < c.size_bytes := by
  unfold collect_matching_dirs at hc
  rcases List.mem_flatten.mp hc with ⟨l, hl, hcl⟩
  rcases List.mem_map.mp hl with ⟨root, hroot, rfl⟩
  by_cases hg : (is_excluded fs root excludes || !fs.isDir root) = true
  · rw [if_pos hg] at hcl; cases hcl
  · rw [if_neg hg] at hcl
    rcases mem_bfs_walk _ _ _ c hcl with ⟨current, entry, hentry⟩
    rcases entry_candidate_spec hentry with ⟨_, hex, hsz⟩
    exact ⟨hex, hsz⟩

/-- Helper: a false disjunction of booleans has a false left component. -/
theorem guard_false_left {a b : Bool} (h : ¬ (a || b) = true) : a = false := by
  cases a <;> simp_all

/-- Helper: a candidate built by `mk_keep` keeps the pair's path and
time, the given category and reason, and has positive size. -/
theorem mk_keep_spec {fs : FS} {category reason : String} {tp : Nat × Path}
    {c : Candidate} (h : mk_keep fs category reason tp = some c) :
    c = Candidate.mk tp.2 (fs.size tp.2) category reason (some tp.1)
      ∧ 0 < c.size_bytes := by
  unfold mk_keep at h
  by_cases hz : fs.size tp.2 = 0
  · rw [if_pos hz] at h; cases h
  · rw [if_neg hz] at h
    injection h with h
    subst h
    exact ⟨rfl, Nat.pos_of_ne_zero hz⟩

/-- Helper: every candidate of the keep-latest loop comes from some pair
of the processed list. -/
theorem mem_keep_latest_loop {fs : FS} {keep : Nat} {category reason : String} :
    ∀ (l : List (Nat × Path)) (i : Nat) (c : Candidate),
      c ∈ keep_latest_loop fs keep category reason i l →
        ∃ tp ∈ l, mk_keep fs category reason tp = some c := by
  intro l
  induction l with
  | nil => intro i c hc; cases hc
  | cons tp rest ih =>
      intro i c hc
      unfold keep_latest_loop at hc
      by_cases hi : i < keep
      · rw [if_pos hi] at hc
        rcases ih (i + 1) c hc with ⟨tp2, h1, h2⟩
        exact ⟨tp2, List.mem_cons_of_mem _ h1, h2⟩
      · rw [if_neg hi] at hc
        rcases hmk : mk_keep fs category reason tp with _ | c0 <;>
          simp only [hmk] at hc
        · rcases ih (i + 1) c hc with ⟨tp2, h1, h2⟩
          exact ⟨tp2, List.mem_cons_of_mem _ h1, h2⟩
        · rcases List.mem_cons.mp hc with rfl | hc
          · exact ⟨tp, List.mem_cons_self _ _, hmk⟩
          · rcases ih (i + 1) c hc with ⟨tp2, h1, h2⟩
            exact ⟨tp2, List.mem_cons_of_mem _ h1, h2⟩

/-- Helper: every candidate of `collect_keep_latest` is a non-excluded
child of the base with positive size. -/
theorem mem_collect_keep_latest {fs : FS} {base : Path} {keep : Nat}
    {category reason : String} {excludes : List Path} {c : Candidate}
    (hc : c ∈ collect_keep_latest fs base keep category reason excludes) :
    is_excluded fs c.path excludes = false ∧ 0 < c.size_bytes := by
  unfold collect_keep_latest at hc
  by_cases hg : (is_excluded fs base excludes || !fs.pathExists base) = true
  · rw [if_pos hg] at hc; cases hc
  · rw [if_neg hg] at hc
    rcases hrd : fs.readDir base with _ | entries <;> simp only [hrd] at hc
    · cases hc
    · rcases mem_keep_latest_loop _ _ c hc with ⟨tp, htp, hmk⟩
      rw [List.mem_insertionSort] at htp
      rcases List.mem_filterMap.mp htp with ⟨entry, _, hf⟩
      rcases mk_keep_spec hmk with ⟨hcval, hpos⟩
      unfold dated_entry at hf
      rcases hex : is_excluded fs (base ++ [entry.name]) excludes <;>
        simp only [hex, Bool.false_eq_true, if_false, if_true] at hf
      · rcases hm : fs.meta (base ++ [entry.name]) with _ | metadata <;>
          simp only [hm] at hf
        · cases hf
        · rcases hdi : metadata.isDir <;>
            simp only [hdi, Bool.not_false, Bool.not_true, Bool.false_eq_true,
              if_false, if_true] at hf
          · cases hf
          · rcases hmo : metadata.modified with _ | mtime <;>
              simp only [hmo] at hf
            · cases hf
            · injection hf with hf
              have hpath : c.path = base ++ [entry.name] := by
                rw [hcval, ← hf]
              refine ⟨?_, hpos⟩
              rw [hpath]
              exact hex
      · cases hf

/-- Helper: every candidate of `collect_whole_directory` is the given
path itself, not excluded and of positive size. -/
theorem mem_collect_whole_directory {fs : FS} {path : Path}
    {category reason : String} {excludes : List Path} {c : Candidate}
    (hc : c ∈ collect_whole_directory fs path category reason excludes) :
    is_excluded fs c.path excludes = false ∧ 0 < c.size_bytes := by
  unfold collect_whole_directory at hc
  by_cases hg : (is_excluded fs path excludes || !fs.pathExists path) = true
  · rw [if_pos hg] at hc; cases hc
  · rw [if_neg hg] at hc
    by_cases hz : fs.size path = 0
    · rw [if_pos hz] at hc; cases hc
    · rw [if_neg hz] at hc
      have hcv : c = Candidate.mk path (fs.size path) category reason
          ((fs.meta path).bind fun metadata => metadata.modified) :=
        List.mem_singleton.mp hc
      subst hcv
      exact ⟨guard_false_left hg, Nat.pos_of_ne_zero hz⟩

/-- Helper: deduplication only drops candidates, never invents them. -/
theorem mem_dedupe_loop {fs : FS} :
    ∀ (l : List Candidate) (seen : List Path) (c : Candidate),
      c ∈ dedupe_loop fs seen l → c ∈ l := by
  intro l
  induction l with
  | nil => intro seen c hc; cases hc
  | cons candidate rest ih =>
      intro seen c hc
      unfold dedupe_loop at hc
      by_cases hk : canonical_key fs candidate.path ∈ seen
      · rw [if_pos hk] at hc
        exact List.mem_cons_of_mem _ (ih _ c hc)
      · rw [if_neg hk] at hc
        rcases List.mem_cons.mp hc with rfl | hc
        · exact List.mem_cons_self _ _
        · exact List.mem_cons_of_mem _ (ih _ c hc)

/-- Helper: every candidate of the final scan result is non-excluded and
has positive size (combining all three discovery strategies, the
deduplication pass and the final sort). -/
theorem mem_scan_spec {fs : FS} {config : ScanConfig} {c : Candidate}
    (hc : c ∈ scan fs config) :
    is_excluded fs c.path config.exclude_paths = false ∧ 0 < c.size_bytes := by
  simp only [scan, gather_candidates, dedupe_candidates] at hc
  rw [List.mem_insertionSort] at hc
  have hc2 := mem_dedupe_loop _ _ _ hc
  rcases List.mem_append.mp hc2 with h | h
  · rcases List.mem_append.mp h with h | h
    · rcases List.mem_append.mp h with h | h
      · rcases List.mem_append.mp h with h | h
        · rcases List.mem_append.mp h with h | h
          · exact mem_collect_keep_latest h
          · exact mem_collect_keep_latest h
        · exact mem_collect_whole_directory h
      · exact mem_collect_keep_latest h
    · rcases List.mem_flatMap.mp h with ⟨target, _, ht⟩
      exact mem_collect_whole_directory ht
  · exact mem_collect_matching_dirs h

/-- C1: no candidate in the final result of `scan` has a canonical path
equal to an exclude path or nested under (a descendant of) one.
Exclusion is decided on the canonicalized path, falling back to the raw
path when canonicalization fails (`canonical_key` is exactly that
fallback), and `is_excluded` is a total boolean test: it never raises
an error. -/
theorem scan_respects_excludes (fs : FS) (config : ScanConfig) :
    ∀ c ∈ scan fs config, ∀ e ∈ config.exclude_paths,
      ¬ canonical_key fs c.path = e ∧ ¬ e <+: canonical_key fs c.path := by
  intro c hc e he
  have hex := (mem_scan_spec hc).1
  unfold is_excluded at hex
  rw [List.any_eq_false] at hex
  have h := hex e he
  have hfalse : ((fs.canon c.path).getD c.path == e
      || List.isPrefixOf e ((fs.canon c.path).getD c.path)) = false :=
    Bool.eq_false_iff.mpr h
  rcases Bool.or_eq_false_iff.mp hfalse with ⟨h1, h2⟩
  constructor
  · intro heq
    have heq2 : (fs.canon c.path).getD c.path = e := heq
    rw [heq2] at h1
    simp at h1
  · intro hpre
    have hpre2 : e <+: (fs.canon c.path).getD c.path := hpre
    rw [List.isPrefixOf_iff_prefix.mpr hpre2] at h2
    cases h2

/-- C1 (witness): the concrete scan produces `cPrj`, whose canonical
path is neither the exclude path `x` nor nested under it. -/
theorem scan_respects_excludes_witness :
    cPrj ∈ scan fsPrj cfgPrjX ∧ ["x"] ∈ cfgPrjX.exclude_paths
      ∧ (¬ canonical_key fsPrj cPrj.path = ["x"]
          ∧ ¬ ["x"] <+: canonical_key fsPrj cPrj.path) :=
  ⟨by decide, by decide,
    scan_respects_excludes fsPrj cfgPrjX cPrj (by decide) ["x"] (by decide)⟩

/-- C6: every candidate in the final result of `scan` (hence of each of
the three discovery strategies feeding it) has strictly positive
`size_bytes`; zero-size candidates are never emitted. -/
theorem scan_candidates_positive (fs : FS) (config : ScanConfig) :
    ∀ c ∈ scan fs config, 0 < c.size_bytes :=
  fun _ hc => (mem_scan_spec hc).2

/-- C6 (witness): the concrete scan produces `cPrj` with positive size. -/
theorem scan_candidates_positive_witness :
    cPrj ∈ scan fsPrj cfgPrj ∧ 0 < cPrj.size_bytes :=
  ⟨by decide, scan_candidates_positive fsPrj cfgPrj cPrj (by decide)⟩

/-- Helper: if every path of the current level sits under `root` exactly
`depth` components below it, every candidate the walk emits from here on
sits under `root` at most `max_depth + 1` components below it. -/
theorem bfs_walk_depth_bound {fs : FS} {category reason : String}
    {pattern_set skip_dirs : List String} {cutoff : Option Nat}
    {max_depth : Nat} {excludes : List Path} {root : Path} :
    ∀ (fuel : Nat) (level : List Path) (depth : Nat),
      (∀ p ∈ level, root <+: p ∧ p.length = root.length + depth) →
      ∀ c ∈ bfs_walk fs category reason pattern_set skip_dirs cutoff max_depth
          excludes fuel level depth,
        root <+: c.path ∧ c.path.length ≤ root.length + max_depth + 1 := by
  intro fuel
  induction fuel with
  | zero => intro level depth _ c hc; cases hc
  | succ fuel ih =>
      intro level depth hlev c hc
      unfold bfs_walk at hc
      by_cases hd : max_depth < depth
      · rw [if_pos hd] at hc; cases hc
      · rw [if_neg hd] at hc
        rcases List.mem_append.mp hc with hc | hc
        · rcases List.mem_flatten.mp hc with ⟨l, hl, hcl⟩
          rcases List.mem_map.mp hl with ⟨pd, hpd, rfl⟩
          rcases List.mem_map.mp hpd with ⟨current, hcur, rfl⟩
          rw [process_dir_eq] at hcl
          rcases hex : is_excluded fs current excludes <;>
            simp only [hex, Bool.false_eq_true, if_false, if_true] at hcl
          · rcases hrd : fs.readDir current with _ | entries <;>
              simp only [hrd] at hcl
            · cases hcl
            · rcases List.mem_filterMap.mp hcl with ⟨entry, _, hentry⟩
              rcases entry_candidate_spec hentry with ⟨hpath, _, _⟩
              rcases hlev current hcur with ⟨hpre, hlen⟩
              constructor
              · rw [hpath]
                exact hpre.trans (List.prefix_append current [entry.name])
              · rw [hpath, List.length_append, hlen]
                simp only [List.length_singleton]
                omega
          · cases hcl
        · refine ih _ (depth + 1) ?_ c hc
          intro p hp
          rcases List.mem_flatten.mp hp with ⟨l, hl, hpl⟩
          rcases List.mem_map.mp hl with ⟨pd, hpd, rfl⟩
          rcases List.mem_map.mp hpd with ⟨current, hcur, rfl⟩
          rw [process_dir_eq] at hpl
          rcases hex : is_excluded fs current excludes <;>
            simp only [hex, Bool.false_eq_true, if_false, if_true] at hpl
          · rcases hrd : fs.readDir current with _ | entries <;>
              simp only [hrd] at hpl
            · cases hpl
            · rcases List.mem_filterMap.mp hpl with ⟨entry, _, hentry⟩
              rcases entry_enqueue_spec hentry with ⟨hpath, _⟩
              rcases hlev current hcur with ⟨hpre, hlen⟩
              subst hpath
              refine ⟨hpre.trans (List.prefix_append current [entry.name]), ?_⟩
              rw [List.length_append, hlen]
              simp only [List.length_singleton]
              omega
          · cases hpl

/-- C3 (amended): every candidate of the bounded project-tree walk lies
under one of the scan roots at most `max_depth + 1` directory levels
below it (matched directories are children of directories expanded at
depth at most `max_depth`; the root itself is depth 0), and non-matching
directories are enqueued for recursion only while the current depth is
strictly below `max_depth`. -/
theorem walk_depth_bound (fs : FS) (roots : List Path)
    (category reason : String) (min_age_days max_depth : Nat)
    (excludes : List Path) :
    (∀ c ∈ collect_matching_dirs fs roots category reason min_age_days max_depth
        excludes,
      ∃ root ∈ roots, root <+: c.path ∧ c.path.length ≤ root.length + max_depth + 1)
      ∧ (∀ (ps sd : List String) (cutoff : Option Nat) (current : Path)
            (depth : Nat) (entry : DirEntry) (p : Path),
          entry_enqueue fs reason ps sd cutoff max_depth excludes current depth
              entry = some p →
            depth < max_depth) := by
  constructor
  · intro c hc
    unfold collect_matching_dirs at hc
    rcases List.mem_flatten.mp hc with ⟨l, hl, hcl⟩
    rcases List.mem_map.mp hl with ⟨root, hroot, rfl⟩
    by_cases hg : (is_excluded fs root excludes || !fs.isDir root) = true
    · rw [if_pos hg] at hcl; cases hcl
    · rw [if_neg hg] at hcl
      refine ⟨root, hroot, bfs_walk_depth_bound _ [root] 0 ?_ c hcl⟩
      intro p hp
      rw [List.mem_singleton] at hp
      subst hp
      exact ⟨List.prefix_refl _, by omega⟩
  · intro ps sd cutoff current depth entry p h
    exact (entry_enqueue_spec h).2

/-- C3 (counterexample): with `max_depth = 0` the walk still flags the
root's immediate `build` child, which lies 1 > 0 levels below its scan
root, so the claimed bound of `max_depth` levels fails. -/
theorem walk_depth_exceeds_max_depth :
    ¬ (∀ c ∈ collect_matching_dirs fsPrj [["r"]] "Project" "Stale build or cache"
          0 0 [],
        c.path.length ≤ (["r"] : Path).length + 0) := by decide

/-- C3 (witness): the concrete walk emits `cPrj`, which satisfies the
amended bound of `max_depth + 1` levels below its root. -/
theorem walk_depth_bound_witness :
    cPrj ∈ collect_matching_dirs fsPrj [["r"]] "Project" "Stale build or cache" 0 0 []
      ∧ ∃ root ∈ [(["r"] : Path)], root <+: cPrj.path
          ∧ cPrj.path.length ≤ root.length + 0 + 1 :=
  ⟨by decide,
    (walk_depth_bound fsPrj [["r"]] "Project" "Stale build or cache" 0 0 []).1 cPrj
      (by decide)⟩

/-! ### The keep-latest retention theorem -/

/-- Helper: a filterMap whose function succeeds on every element is the
corresponding map. -/
theorem filterMap_eq_map_of_all {α β : Type} (f : α → Option β) (g : α → β) :
    ∀ l : List α, (∀ a ∈ l, f a = some (g a)) → l.filterMap f = l.map g := by
  intro l
  induction l with
  | nil => intro _; rfl
  | cons a rest ih =>
      intro h
      have h1 := h a (List.mem_cons_self _ _)
      simp [List.filterMap_cons, h1,
        ih (fun b hb => h b (List.mem_cons_of_mem _ hb))]

/-- Helper: the keep-latest loop started at index `i` drops the first
`keep - i` entries and converts the rest. -/
theorem keep_latest_loop_eq_drop {fs : FS} {keep : Nat} {category reason : String} :
    ∀ (l : List (Nat × Path)) (i : Nat),
      keep_latest_loop fs keep category reason i l =
        (l.drop (keep - i)).filterMap (mk_keep fs category reason) := by
  intro l
  induction l with
  | nil => intro i; simp [keep_latest_loop]
  | cons tp rest ih =>
      intro i
      unfold keep_latest_loop
      by_cases hi : i < keep
      · rw [if_pos hi, ih (i + 1)]
        have hs : keep - i = (keep - (i + 1)) + 1 := by omega
        rw [hs, List.drop_succ_cons]
      · rw [if_neg hi]
        have h0 : keep - i = 0 := by omega
        have h1 : keep - (i + 1) = 0 := by omega
        rcases hmk : mk_keep fs category reason tp with _ | c <;>
          simp [hmk, List.filterMap_cons, ih (i + 1), h0, h1]

instance : IsTotal (Nat × Path) dated_before :=
  ⟨fun a b => Nat.le_total b.1 a.1⟩

instance : IsTrans (Nat × Path) dated_before :=
  ⟨fun _ _ _ h1 h2 => le_trans h2 h1⟩

/-- C4: for a base directory whose listing consists of N subdirectories,
all non-excluded, with readable modification times (given by `mt`,
pairwise distinct) and positive computed size, and any `keep = k < N`,
the keep-latest scan flags exactly `N - k` candidates; each flagged
candidate is one of the subdirectories carrying its modification time;
and every flagged candidate is strictly older than every unflagged
subdirectory — i.e. the flagged set is exactly the `N - k`
least-recently-modified subdirectories, and the `k` most recently
modified are never flagged. -/
theorem collect_keep_latest_retention (fs : FS) (base : Path) (keep : Nat)
    (category reason : String) (excludes : List Path)
    (entries : List DirEntry) (mt : DirEntry → Nat)
    (hexb : is_excluded fs base excludes = false)
    (hexists : fs.pathExists base = true)
    (hrd : fs.readDir base = some entries)
    (hexc : ∀ e ∈ entries, is_excluded fs (base ++ [e.name]) excludes = false)
    (hmeta : ∀ e ∈ entries,
        fs.meta (base ++ [e.name]) = some (Metadata.mk true (some (mt e))))
    (hsize : ∀ e ∈ entries, 0 < fs.size (base ++ [e.name]))
    (hdist : (entries.map mt).Nodup)
    (_hkeep : keep < entries.length) :
    (collect_keep_latest fs base keep category reason excludes).length
        = entries.length - keep
      ∧ (∀ c ∈ collect_keep_latest fs base keep category reason excludes,
          ∃ e ∈ entries, c.path = base ++ [e.name] ∧ c.last_used = some (mt e))
      ∧ (∀ c ∈ collect_keep_latest fs base keep category reason excludes,
          ∀ e ∈ entries,
            (base ++ [e.name]) ∉ (collect_keep_latest fs base keep category reason
                excludes).map Candidate.path →
              ∃ tc, c.last_used = some tc ∧ tc < mt e) := by
  have hdd : entries.filterMap (dated_entry fs base excludes) =
      entries.map (dated_pair base mt) := by
    apply filterMap_eq_map_of_all
    intro e he
    unfold dated_entry dated_pair
    simp [hexc e he, hmeta e he]
  have hcoll : collect_keep_latest fs base keep category reason excludes =
      ((List.insertionSort dated_before (entries.map (dated_pair base mt))).drop
          keep).map (keep_candidate fs category reason) := by
    unfold collect_keep_latest
    simp only [hexb, hexists, Bool.not_true, Bool.or_false, Bool.false_eq_true,
      if_false, hrd]
    rw [hdd, keep_latest_loop_eq_drop, Nat.sub_zero]
    apply filterMap_eq_map_of_all
    intro tp htp
    have htp2 : tp ∈ List.insertionSort dated_before (entries.map (dated_pair base mt)) :=
      List.mem_of_mem_drop htp
    rw [List.mem_insertionSort] at htp2
    rcases List.mem_map.mp htp2 with ⟨e, he, rfl⟩
    unfold mk_keep keep_candidate dated_pair
    simp [Nat.pos_iff_ne_zero.mp (hsize e he)]
  have hsorted : (List.insertionSort dated_before
      (entries.map (dated_pair base mt))).Pairwise dated_before :=
    List.sorted_insertionSort dated_before _
  have hperm : (List.insertionSort dated_before (entries.map (dated_pair base mt))).Perm
      (entries.map (dated_pair base mt)) :=
    List.perm_insertionSort _ _
  have hfst : (entries.map (dated_pair base mt)).map Prod.fst = entries.map mt := by
    rw [List.map_map]
    rfl
  have hnodup : ((List.insertionSort dated_before
      (entries.map (dated_pair base mt))).map Prod.fst).Nodup := by
    have hp := hperm.map Prod.fst
    rw [hfst] at hp
    exact hp.nodup_iff.mpr hdist
  have hne : (List.insertionSort dated_before
      (entries.map (dated_pair base mt))).Pairwise
        (fun a b : Nat × Path => a.1 ≠ b.1) := by
    have h2 : (List.insertionSort dated_before
        (entries.map (dated_pair base mt))).map Prod.fst |>.Pairwise (· ≠ ·) := hnodup
    exact List.pairwise_map.mp h2
  have hstrict : (List.insertionSort dated_before
      (entries.map (dated_pair base mt))).Pairwise
        (fun a b : Nat × Path => b.1 < a.1) :=
    (hsorted.and hne).imp fun h => lt_of_le_of_ne h.1 (Ne.symm h.2)
  have hlenS : (List.insertionSort dated_before
      (entries.map (dated_pair base mt))).length = entries.length := by
    rw [hperm.length_eq, List.length_map]
  have hcross : ∀ x ∈ (List.insertionSort dated_before
        (entries.map (dated_pair base mt))).take keep,
      ∀ y ∈ (List.insertionSort dated_before
        (entries.map (dated_pair base mt))).drop keep, y.1 < x.1 := by
    have hp : ((List.insertionSort dated_before
        (entries.map (dated_pair base mt))).take keep ++
          (List.insertionSort dated_before
            (entries.map (dated_pair base mt))).drop keep).Pairwise
          (fun a b : Nat × Path => b.1 < a.1) := by
      rw [List.take_append_drop]
      exact hstrict
    exact (List.pairwise_append.mp hp).2.2
  refine ⟨?_, ?_, ?_⟩
  · rw [hcoll, List.length_map, List.length_drop, hlenS]
  · intro c hc
    rw [hcoll] at hc
    rcases List.mem_map.mp hc with ⟨tp, htp, rfl⟩
    have htp2 := (List.mem_insertionSort _).mp (List.mem_of_mem_drop htp)
    rcases List.mem_map.mp htp2 with ⟨e, he, rfl⟩
    exact ⟨e, he, rfl, rfl⟩
  · intro c hc e he hnot
    rw [hcoll] at hc
    rcases List.mem_map.mp hc with ⟨tp, htp, rfl⟩
    have hge : dated_pair base mt e ∈ List.insertionSort dated_before
        (entries.map (dated_pair base mt)) :=
      (List.mem_insertionSort _).mpr (List.mem_map_of_mem _ he)
    rw [← List.take_append_drop keep (List.insertionSort dated_before
      (entries.map (dated_pair base mt)))] at hge
    rcases List.mem_append.mp hge with hge | hge
    · exact ⟨tp.1, rfl, hcross _ hge tp htp⟩
    · exfalso
      apply hnot
      rw [hcoll, List.map_map]
      exact List.mem_map.mpr ⟨dated_pair base mt e, hge, rfl⟩

/-- C4 (witness): three subdirectories A (oldest), B, C (newest) with
`keep = 1` flag exactly two candidates. -/
theorem collect_keep_latest_retention_witness :
    1 < entriesKeep.length
      ∧ (collect_keep_latest fsKeep ["base"] 1 "Homebrew" "Homebrew download cache"
          []).length = entriesKeep.length - 1 :=
  ⟨by decide,
    (collect_keep_latest_retention fsKeep ["base"] 1 "Homebrew"
      "Homebrew download cache" [] entriesKeep mtKeep (by decide) (by decide)
      (by decide) (by decide) (by decide) (by decide) (by decide) (by decide)).1⟩

/-! ### Which retention knob feeds which keep-latest scan -/

/-- Helper: a keep-latest scan over an absent base yields nothing,
whatever the retention count. -/
theorem collect_keep_latest_not_exists {fs : FS} {base : Path} {keep : Nat}
    {category reason : String} {excludes : List Path}
    (h : fs.pathExists base = false) :
    collect_keep_latest fs base keep category reason excludes = [] := by
  unfold collect_keep_latest
  simp [h]

/-- Helper: a whole-directory scan over an absent path yields nothing. -/
theorem collect_whole_directory_not_exists {fs : FS} {path : Path}
    {category reason : String} {excludes : List Path}
    (h : fs.pathExists path = false) :
    collect_whole_directory fs path category reason excludes = [] := by
  unfold collect_whole_directory
  simp [h]

/-- Helper: a flatMap of everywhere-empty results is empty. -/
theorem flatMap_eq_nil_of_all {α β : Type} (f : α → List β) :
    ∀ l : List α, (∀ a ∈ l, f a = []) → l.flatMap f = [] := by
  intro l
  induction l with
  | nil => intro _; rfl
  | cons a rest ih =>
      intro h
      rw [List.flatMap_cons, h a (List.mem_cons_self _ _), List.nil_append,
        ih (fun b hb => h b (List.mem_cons_of_mem _ hb))]

/-- C10: the Xcode Archives keep-latest scan is driven by
`keep_latest_derived`, the same knob as the DerivedData scan, with no
separate knob of its own, while `keep_latest_cache` governs only the
Homebrew cache scan.  First part: when the Homebrew cache root is
absent, the whole scan result is independent of `keep_latest_cache`.
Second part: when everything except the Archives root is absent, the
scan is exactly the Archives keep-latest scan retained with
`keep_latest_derived`. -/
theorem archives_use_derived_keep :
    (∀ (fs : FS) (roots : List Path) (mad mxd kd kc1 kc2 : Nat) (ex : List Path),
        fs.pathExists (((fs.home).getD ["."]) ++ HOMEBREW_CACHE_REL) = false →
          gather_candidates fs (ScanConfig.mk roots mad mxd kd kc1 ex) =
            gather_candidates fs (ScanConfig.mk roots mad mxd kd kc2 ex))
      ∧ (∀ (fs : FS) (config : ScanConfig),
          fs.pathExists (((fs.home).getD ["."]) ++ XCODE_DERIVED_DATA_REL) = false →
          fs.pathExists (((fs.home).getD ["."]) ++ CORE_SIMULATOR_CACHES_REL) = false →
          fs.pathExists (((fs.home).getD ["."]) ++ HOMEBREW_CACHE_REL) = false →
          (∀ t ∈ build_cache_targets ((fs.home).getD ["."]),
              fs.pathExists t.1 = false) →
          config.roots = [] →
            gather_candidates fs config =
              List.insertionSort candidate_before
                (dedupe_candidates fs
                  (collect_keep_latest fs
                    (((fs.home).getD ["."]) ++ XCODE_ARCHIVES_REL)
                    config.keep_latest_derived "Xcode" "Old Xcode archives"
                    config.exclude_paths))) := by
  constructor
  · intro fs roots mad mxd kd kc1 kc2 ex hbrew
    unfold gather_candidates
    simp only [collect_keep_latest_not_exists hbrew]
  · intro fs config h1 h2 h3 h4 h5
    have hcaches := flatMap_eq_nil_of_all
      (fun target => collect_whole_directory fs target.1 target.2.1 target.2.2
        config.exclude_paths)
      (build_cache_targets ((fs.home).getD ["."]))
      (fun t ht => collect_whole_directory_not_exists (h4 t ht))
    simp only [gather_candidates, collect_keep_latest_not_exists h1,
      collect_whole_directory_not_exists h2, collect_keep_latest_not_exists h3,
      hcaches, h5, List.nil_append, List.append_nil]
    simp [collect_matching_dirs]

/-- C10 (witness): with only the Archives root present, the scan result
does not depend on `keep_latest_cache`, and equals the Archives
keep-latest scan retained with `keep_latest_derived = 1`. -/
theorem archives_use_derived_keep_witness :
    fsArch.pathExists (((fsArch.home).getD ["."]) ++ HOMEBREW_CACHE_REL) = false
      ∧ gather_candidates fsArch (ScanConfig.mk [] 0 1 1 5 [])
          = gather_candidates fsArch (ScanConfig.mk [] 0 1 1 9 [])
      ∧ gather_candidates fsArch (ScanConfig.mk [] 0 1 1 0 [])
          = List.insertionSort candidate_before
              (dedupe_candidates fsArch
                (collect_keep_latest fsArch
                  (((fsArch.home).getD ["."]) ++ XCODE_ARCHIVES_REL)
                  1 "Xcode" "Old Xcode archives" [])) :=
  ⟨by decide,
    archives_use_derived_keep.1 fsArch [] 0 1 1 5 9 [] (by decide),
    archives_use_derived_keep.2 fsArch (ScanConfig.mk [] 0 1 1 0 []) (by decide)
      (by decide) (by decide) (by decide) rfl⟩

end Devstrip
